import Mathlib

/-!
Shallow embedding of the news aggregation pipeline in `src/news_agent.py`.

Python strings are modelled as `String` (or `List Char` where per-character
case folding and substring search matter), absent values as `Option`,
timestamps (`time.struct_time` run through `time.mktime`, and `datetime`
instants) as epoch seconds of type `Int`, and `timedelta(days=d)` as
`d * 86400` seconds.  Python's stable `list.sort(key=..., reverse=True)` is
modelled by `List.insertionSort` with the reversed key order, which is also
stable.  CPython list slicing `l[:k]` is modelled with its documented index
normalisation (negative indices count from the end, then clamp).
-/

namespace NewsAgent

/-- Model of `k in t` for Python strings restricted to a test at the head:
true when `k` is an initial run of `t`. -/
def leadMatch : List Char → List Char → Bool
  | [], _ => true
  | _ :: _, [] => false
  | c :: cs, d :: ds => c == d && leadMatch cs ds

/-- Model of the Python substring operator `k in t`: `k` occurs contiguously
somewhere in `t`. -/
def subMatch (k : List Char) : List Char → Bool
  | [] => leadMatch k []
  | d :: ds => leadMatch k (d :: ds) || subMatch k ds

/-- From `news_agent.py`, `matches_keywords(text, includes, excludes)`:
lower-case the blob (`(text or "").lower()`); if `includes` is non-empty and
no lowered include keyword occurs in it, return `False`; if `excludes` is
non-empty and some lowered exclude keyword occurs in it, return `False`;
otherwise `True`. -/
def matches_keywords (text : Option (List Char)) (includes excludes : List (List Char)) : Bool :=
  let t := (text.getD []).map Char.toLower
  if includes ≠ [] ∧ ¬ ((includes.any fun k => subMatch (k.map Char.toLower) t) = true) then
    false
  else if excludes ≠ [] ∧ (excludes.any fun k => subMatch (k.map Char.toLower) t) = true then
    false
  else
    true

/-- From `news_agent.py`, `within_last_days(published_parsed, days)`: `True`
when the timestamp is absent; otherwise `True` iff the published instant is
at or after `now - timedelta(days=days)`.  Times are epoch seconds; `now` is
passed explicitly (the code reads the clock). -/
def within_last_days (published_parsed : Option Int) (days : Int) (now : Int) : Bool :=
  match published_parsed with
  | none => true
  | some ts => decide (ts ≥ now - days * 86400)

/-- From `news_agent.py`, the `mapping` dict inside `iso_region_to_params`. -/
def regionMapping : List (String × String × String × String) :=
  [("US", "en-US", "US", "US:en"),
   ("GB", "en-GB", "GB", "GB:en"),
   ("CA", "en-CA", "CA", "CA:en"),
   ("AU", "en-AU", "AU", "AU:en"),
   ("IN", "en-IN", "IN", "IN:en"),
   ("FR", "fr",    "FR", "FR:fr"),
   ("DE", "de",    "DE", "DE:de"),
   ("ES", "es",    "ES", "ES:es"),
   ("IT", "it",    "IT", "IT:it"),
   ("BR", "pt-BR", "BR", "BR:pt")]

/-- Model of Python's `str.upper()`: upper-case each character. -/
def pyUpper (s : String) : String :=
  String.mk (s.data.map Char.toUpper)

/-- From `news_agent.py`, `iso_region_to_params(region_code)`:
`mapping.get(region_code.upper(), ("en-US", "US", "US:en"))`. -/
def iso_region_to_params (region_code : String) : String × String × String :=
  (regionMapping.lookup (pyUpper region_code)).getD ("en-US", "US", "US:en")

/-- Upper-case hexadecimal digit, as produced by `urllib.parse.quote`. -/
def hexDigit (n : Nat) : Char :=
  if n < 10 then Char.ofNat (48 + n) else Char.ofNat (55 + n)

/-- Percent-encoding of a single UTF-8 byte under `urllib.parse.quote_plus`
with the default empty safe set: space becomes a plus sign, the always-safe
bytes (ASCII letters, digits, underscore, dot, hyphen, tilde) pass through,
everything else becomes a percent escape. -/
def quoteByte (b : UInt8) : List Char :=
  let n := b.toNat
  if n = 32 then [Char.ofNat 43]
  else if (65 ≤ n ∧ n ≤ 90) ∨ (97 ≤ n ∧ n ≤ 122) ∨ (48 ≤ n ∧ n ≤ 57) ∨
      n = 95 ∨ n = 46 ∨ n = 45 ∨ n = 126 then [Char.ofNat n]
  else [Char.ofNat 37, hexDigit (n / 16), hexDigit (n % 16)]

/-- The UTF-8 byte sequence of a single character. -/
def utf8Bytes (c : Char) : List UInt8 :=
  let n := c.toNat
  if n < 128 then [UInt8.ofNat n]
  else if n < 2048 then
    [UInt8.ofNat (192 + n / 64), UInt8.ofNat (128 + n % 64)]
  else if n < 65536 then
    [UInt8.ofNat (224 + n / 4096), UInt8.ofNat (128 + (n / 64) % 64),
     UInt8.ofNat (128 + n % 64)]
  else
    [UInt8.ofNat (240 + n / 262144), UInt8.ofNat (128 + (n / 4096) % 64),
     UInt8.ofNat (128 + (n / 64) % 64), UInt8.ofNat (128 + n % 64)]

/-- Model of `urllib.parse.quote_plus` applied to the query string in
`google_news_search_feed`: encode each UTF-8 byte. -/
def quote_plus (s : String) : String :=
  String.mk ((s.data.flatMap utf8Bytes).flatMap quoteByte)

/-- From `news_agent.py`, `google_news_search_feed(query, region_code)`. -/
def google_news_search_feed (query : String) (region_code : String) : String :=
  let p := iso_region_to_params region_code
  let q := quote_plus query
  "https://news.google.com/rss/search?q=" ++ q ++ "+when:1d&hl=" ++ p.1 ++
    "&gl=" ++ p.2.1 ++ "&ceid=" ++ p.2.2

/-- A configured sector: the dict `{"name": ..., "queries": [...]}` read with
`sector.get("name", "Sector")` and `sector.get("queries", [])`; `none` models
an absent key. -/
structure Sector where
  name : Option String
  queries : Option (List String)

/-- The feed-plan construction from `main()` (lines 129-142): when `sectors`
is empty, one entry per region per query of
`config.get("queries", ["technology", "business"])` with group label
"General"; otherwise one entry per sector per region per sector query.
`queries = none` models a configuration without the `queries` key. -/
def buildPlan (regions : List String) (sectors : List Sector)
    (queries : Option (List String)) : List (String × String × String) :=
  match sectors with
  | [] =>
    let base_queries := queries.getD ["technology", "business"]
    regions.flatMap fun r =>
      base_queries.map fun q => ("General", r, google_news_search_feed q r)
  | _ =>
    sectors.flatMap fun sector =>
      regions.flatMap fun r =>
        (sector.queries.getD []).map fun q =>
          (sector.name.getD "Sector", r, google_news_search_feed q r)

/-- Python's `a or b` on optional strings: keep `a` when it is a present,
non-empty (truthy) string, otherwise fall through to `b`. -/
def pyOrStr (a b : Option String) : Option String :=
  match a with
  | some s => if s = "" then b else some s
  | none => b

/-- From `news_agent.py`, `env_or_config`:
`os.getenv(key) or config.get("email", {}).get(key.lower()) or default`. -/
def env_or_config (envVal cfgVal fallback : Option String) : Option String :=
  pyOrStr (pyOrStr envVal cfgVal) fallback

/-- Truthiness test used by the three-tier description in the spec: a value
is kept when it is present and non-empty. -/
def nonEmptyOpt (a : Option String) : Bool :=
  match a with
  | some s => !(s == "")
  | none => false

/-- Three-tier resolution as worded by the spec: the first present, non-empty
value among (overrideValue, configuredValue, fallbackValue). -/
def firstNonEmpty (overrideValue configuredValue fallbackValue : Option String) :
    Option String :=
  if nonEmptyOpt overrideValue then overrideValue
  else if nonEmptyOpt configuredValue then configuredValue
  else fallbackValue

/-- Helper for `uniq`, carrying the `seen` set (modelled as a list of keys)
through the loop. -/
def uniqAux {α κ : Type} [DecidableEq κ] (key : α → κ) : List κ → List α → List α
  | _, [] => []
  | seen, x :: xs =>
    if key x ∈ seen then uniqAux key seen xs
    else x :: uniqAux key (key x :: seen) xs

/-- From `news_agent.py`, `uniq(seq, key)`: keep each element whose key has
not been seen yet, in order. -/
def uniq {α κ : Type} [DecidableEq κ] (seq : List α) (key : α → κ) : List α :=
  uniqAux key [] seq

/-- The normalized record dict built in `main()` (lines 161-170). -/
structure NewsItem where
  title : String
  summary : String
  link : String
  source : Option String
  sector : String
  region : String
  published : Option String
  published_parsed : Option Int
deriving DecidableEq

/-- The deduplication key from `main()` line 173:
`x["link"] or x["title"]` (the link when truthy, else the title). -/
def dedup_key (x : NewsItem) : String :=
  if x.link = "" then x.title else x.link

/-- From `main()`, `sort_key(x)` (lines 176-180): the parsed publish time
when present (truthy), else `0`. -/
def sort_key (x : NewsItem) : Int :=
  match x.published_parsed with
  | some ts => ts
  | none => 0

/-- Model of `items.sort(key=sort_key, reverse=True)` (line 181): a stable
sort placing larger sort keys first; ties keep encounter order. -/
def pySortDesc (l : List NewsItem) : List NewsItem :=
  l.insertionSort fun a b => sort_key b ≤ sort_key a

/-- CPython list slicing `l[:stop]`: a negative stop counts from the end,
then the index is clamped into `[0, len(l)]`. -/
def pySliceUpto {α : Type} (l : List α) (stop : Int) : List α :=
  let n : Int := l.length
  let s := if stop < 0 then stop + n else stop
  l.take (max 0 (min s n)).toNat

/-- The tail of the aggregation in `main()` (lines 172-184): deduplicate by
`dedup_key`, sort by `sort_key` descending (stable), cap with
`items[:max_items]`. -/
def aggregateTail (items : List NewsItem) (max_items : Int) : List NewsItem :=
  pySliceUpto (pySortDesc (uniq items dedup_key)) max_items

/-- Sample record with no parseable publish timestamp. -/
def recNoTs : NewsItem :=
  { title := "story without timestamp", summary := "s", link := "http://a",
    source := none, sector := "General", region := "US",
    published := none, published_parsed := none }

/-- Sample record with a pre-epoch (negative) parsed publish timestamp. -/
def recNeg : NewsItem :=
  { title := "pre-epoch story", summary := "s", link := "http://b",
    source := none, sector := "General", region := "US",
    published := some "31 Dec 1969", published_parsed := some (-7200) }

/-- Sample record with a positive parsed publish timestamp. -/
def recPos : NewsItem :=
  { title := "recent story", summary := "s", link := "http://c",
    source := none, sector := "General", region := "US",
    published := some "01 Jan 2026", published_parsed := some 1767225600 }

instance : IsTotal NewsItem fun a b => sort_key b ≤ sort_key a :=
  ⟨fun a b => Int.le_total (sort_key b) (sort_key a)⟩

instance : IsTrans NewsItem fun a b => sort_key b ≤ sort_key a :=
  ⟨fun _ _ _ hab hbc => Int.le_trans hbc hab⟩

/-! ### Helper lemmas about `uniq` -/

theorem uniqAux_sublist {α κ : Type} [DecidableEq κ] (key : α → κ) :
    ∀ (seen : List κ) (l : List α), (uniqAux key seen l).Sublist l
  | _, [] => List.Sublist.refl []
  | seen, x :: xs => by
    by_cases h : key x ∈ seen
    · simp only [uniqAux, if_pos h]
      exact (uniqAux_sublist key seen xs).cons x
    · simp only [uniqAux, if_neg h]
      exact (uniqAux_sublist key (key x :: seen) xs).cons₂ x

theorem uniqAux_key_not_mem {α κ : Type} [DecidableEq κ] (key : α → κ) :
    ∀ (seen : List κ) (l : List α) (x : α), x ∈ uniqAux key seen l → key x ∉ seen
  | seen, [], x, hx => by simp [uniqAux] at hx
  | seen, y :: ys, x, hx => by
    by_cases h : key y ∈ seen
    · simp only [uniqAux, if_pos h] at hx
      exact uniqAux_key_not_mem key seen ys x hx
    · simp only [uniqAux, if_neg h, List.mem_cons] at hx
      rcases hx with rfl | hx
      · exact h
      · have h2 := uniqAux_key_not_mem key (key y :: seen) ys x hx
        exact fun hmem => h2 (List.mem_cons_of_mem _ hmem)

theorem uniqAux_map_nodup {α κ : Type} [DecidableEq κ] (key : α → κ) :
    ∀ (seen : List κ) (l : List α), ((uniqAux key seen l).map key).Nodup
  | _, [] => by simp [uniqAux]
  | seen, y :: ys => by
    by_cases h : key y ∈ seen
    · simp only [uniqAux, if_pos h]
      exact uniqAux_map_nodup key seen ys
    · simp only [uniqAux, if_neg h, List.map_cons, List.nodup_cons]
      refine ⟨?_, uniqAux_map_nodup key (key y :: seen) ys⟩
      intro hmem
      rcases List.mem_map.mp hmem with ⟨z, hz, hkz⟩
      have h2 := uniqAux_key_not_mem key (key y :: seen) ys z hz
      apply h2
      rw [hkz]
      exact List.mem_cons_self _ _

theorem uniqAux_find {α κ : Type} [DecidableEq κ] (key : α → κ) (k : κ) :
    ∀ (seen : List κ) (l : List α), k ∉ seen →
      (uniqAux key seen l).find? (fun y => key y == k) = l.find? (fun y => key y == k)
  | _, [], _ => rfl
  | seen, y :: ys, hk => by
    by_cases h : key y ∈ seen
    · have hne : (key y == k) = false := by
        apply beq_eq_false_iff_ne.mpr
        intro he
        rw [he] at h
        exact hk h
      simp only [uniqAux, if_pos h, List.find?_cons, hne]
      exact uniqAux_find key k seen ys hk
    · simp only [uniqAux, if_neg h, List.find?_cons]
      cases hyk : (key y == k) with
      | false =>
        have hk2 : k ∉ key y :: seen := by
          intro hmem
          rcases List.mem_cons.mp hmem with rfl | hmem
          · simp at hyk
          · exact hk hmem
        exact uniqAux_find key k (key y :: seen) ys hk2
      | true => rfl

/-! ### Helper lemmas about the stable descending sort -/

theorem filter_orderedInsert {α : Type} (r : α → α → Prop) [DecidableRel r] (p : α → Bool)
    (hp : ∀ a b, p a = true → p b = true → r a b) (x : α) :
    ∀ l : List α, (List.orderedInsert r x l).filter p =
      if p x then x :: l.filter p else l.filter p
  | [] => by simp [List.orderedInsert, List.filter_cons]
  | y :: ys => by
    by_cases hxy : r x y
    · simp only [List.orderedInsert, if_pos hxy]
      by_cases hpx : p x = true <;> simp [List.filter_cons, hpx]
    · simp only [List.orderedInsert, if_neg hxy]
      by_cases hpy : p y = true
      · by_cases hpx : p x = true
        · exact absurd (hp x y hpx hpy) hxy
        · simp [List.filter_cons, hpy, hpx, filter_orderedInsert r p hp x ys]
      · simp [List.filter_cons, hpy, filter_orderedInsert r p hp x ys]

theorem filter_insertionSort {α : Type} (r : α → α → Prop) [DecidableRel r] (p : α → Bool)
    (hp : ∀ a b, p a = true → p b = true → r a b) :
    ∀ l : List α, (List.insertionSort r l).filter p = l.filter p
  | [] => rfl
  | x :: xs => by
    simp only [List.insertionSort]
    rw [filter_orderedInsert r p hp x, filter_insertionSort r p hp xs]
    by_cases hpx : p x = true <;> simp [List.filter_cons, hpx]

/-! ### Helper lemmas about the slicing cap -/

theorem pySliceUpto_nonneg {α : Type} (l : List α) (k : Int) (hk : 0 ≤ k) :
    pySliceUpto l k = l.take k.toNat := by
  have h1 : ¬ k < 0 := not_lt.mpr hk
  simp only [pySliceUpto, if_neg h1]
  have h2 : (max 0 (min k (l.length : Int))).toNat = min k.toNat l.length := by omega
  rw [h2]
  rcases Nat.le_total k.toNat l.length with h | h
  · rw [min_eq_left h]
  · rw [min_eq_right h, List.take_length, List.take_of_length_le h]

theorem pySliceUpto_neg {α : Type} (l : List α) (k : Int) (hk : k < 0) :
    pySliceUpto l k = l.take (l.length - (-k).toNat) := by
  simp only [pySliceUpto, if_pos hk]
  congr 1
  omega

/-! ### Helper lemma about the region table -/

theorem lookup_eq_none_of_not_mem {β : Type} (a : String) :
    ∀ l : List (String × β), a ∉ l.map Prod.fst → l.lookup a = none
  | [], _ => rfl
  | (k, v) :: rest, h => by
    simp only [List.map_cons, List.mem_cons] at h
    push_neg at h
    have hne : (a == k) = false := beq_eq_false_iff_ne.mpr h.1
    simp only [List.lookup, hne]
    exact lookup_eq_none_of_not_mem a rest h.2

theorem pyOrStr_eq (a b : Option String) :
    pyOrStr a b = if nonEmptyOpt a then a else b := by
  cases a with
  | none => simp [pyOrStr, nonEmptyOpt]
  | some s => by_cases hs : s = "" <;> simp [pyOrStr, nonEmptyOpt, hs]

/-! ### Claim theorems -/

/-- Claim C4: the recency check admits an entry with no parseable publish
timestamp for any window at least zero days wide; otherwise it admits the
entry iff the elapsed time from the timestamp to now is at most `days` days,
with an inclusive boundary: exactly `days` days before now is admitted, and
`days` days plus one second before now is rejected. -/
theorem C4_recency_window (days now : Int) (_h : 0 ≤ days) :
    within_last_days none days now = true ∧
    (∀ ts : Int, within_last_days (some ts) days now = true ↔ now - ts ≤ days * 86400) ∧
    within_last_days (some (now - days * 86400)) days now = true ∧
    within_last_days (some (now - (days * 86400 + 1))) days now = false := by
  refine ⟨rfl, ?_, ?_, ?_⟩
  · intro ts
    simp only [within_last_days, decide_eq_true_eq, ge_iff_le]
    omega
  · simp only [within_last_days, decide_eq_true_eq, ge_iff_le]
    omega
  · simp only [within_last_days]
    rw [decide_eq_false_iff_not]
    omega

/-- Witness for C4 at days = 1, now = 200000. -/
theorem C4_recency_window_witness :
    (0 ≤ (1 : Int)) ∧
    (within_last_days none 1 200000 = true ∧
     (∀ ts : Int, within_last_days (some ts) 1 200000 = true ↔ 200000 - ts ≤ 1 * 86400) ∧
     within_last_days (some (200000 - 1 * 86400)) 1 200000 = true ∧
     within_last_days (some (200000 - (1 * 86400 + 1))) 1 200000 = false) :=
  ⟨by decide, C4_recency_window 1 200000 (by decide)⟩

/-- Claim C10: an entry whose parsed publish timestamp lies in the future
(strictly after now) is always admitted by the recency check, for any
window of at least zero days. -/
theorem C10_future_admitted (ts now days : Int) (h : 0 ≤ days) (hf : now < ts) :
    within_last_days (some ts) days now = true := by
  simp only [within_last_days, decide_eq_true_eq, ge_iff_le]
  omega

/-- Witness for C10 at ts = 5000, now = 100, days = 3. -/
theorem C10_future_admitted_witness :
    (0 ≤ (3 : Int)) ∧ ((100 : Int) < 5000) ∧
    within_last_days (some 5000) 3 100 = true :=
  ⟨by decide, by decide, C10_future_admitted 5000 100 3 (by decide) (by decide)⟩

/-- Claim C9: the settings resolution returns the first present, non-empty
value among (overrideValue, configuredValue, fallbackValue): the override
when it is a non-empty string, else the configured value when non-empty,
else the fallback. -/
theorem C9_three_tier (e c d : Option String) :
    env_or_config e c d = firstNonEmpty e c d := by
  unfold env_or_config firstNonEmpty
  rw [pyOrStr_eq, pyOrStr_eq]
  by_cases he : nonEmptyOpt e = true
  · simp [he]
  · by_cases hc : nonEmptyOpt c = true <;>
      simp [he, hc]

/-- Claim C8: the region parameter lookup is total, case-insensitive in its
input code (it depends only on the upper-cased code), and returns the fixed
default triple for every code not in the table. -/
theorem C8_region_default (c1 c2 c : String) (h12 : pyUpper c1 = pyUpper c2)
    (hc : pyUpper c ∉ regionMapping.map Prod.fst) :
    iso_region_to_params c1 = iso_region_to_params c2 ∧
    iso_region_to_params c = ("en-US", "US", "US:en") := by
  constructor
  · simp only [iso_region_to_params, h12]
  · simp only [iso_region_to_params]
    rw [lookup_eq_none_of_not_mem (pyUpper c) regionMapping hc]
    rfl

/-- Witness for C8 at codes "us", "uS" and the unknown code "zz". -/
theorem C8_region_default_witness :
    (pyUpper "us" = pyUpper "uS") ∧
    (pyUpper "zz" ∉ regionMapping.map Prod.fst) ∧
    (iso_region_to_params "us" = iso_region_to_params "uS" ∧
     iso_region_to_params "zz" = ("en-US", "US", "US:en")) :=
  ⟨by decide, by decide, C8_region_default "us" "uS" "zz" (by decide) (by decide)⟩

/-- Claim C1 counterexample: with one region, no sectors, and the query list
configured as the empty list, the plan is empty rather than one entry per
built-in default topic. -/
theorem C1_counterexample :
    buildPlan ["US"] [] (some []) = [] ∧
    buildPlan ["US"] [] (some []) ≠
      [("General", "US", google_news_search_feed "technology" "US"),
       ("General", "US", google_news_search_feed "business" "US")] := by
  refine ⟨rfl, ?_⟩
  intro h
  have h0 : buildPlan ["US"] [] (some []) = [] := rfl
  rw [h0] at h
  exact List.noConfusion h

/-- Claim C1 amended: when the sectors list is empty and the query list is
absent from the configuration (not merely configured empty), the plan uses
the built-in pair of default topics "technology" and "business", emitting
for each region one entry per built-in query with group label "General". -/
theorem C1_builtin_default (regions : List String) :
    buildPlan regions [] none =
      regions.flatMap fun r =>
        [("General", r, google_news_search_feed "technology" r),
         ("General", r, google_news_search_feed "business" r)] := by
  simp only [buildPlan, Option.getD_none, List.map_cons, List.map_nil]

/-- Claim C2 counterexample: slicing with maxItems = -1 on a three-record
list keeps the first two records, so a negative cap does not yield the
empty list. -/
theorem C2_counterexample :
    ((-1 : Int) ≤ 0) ∧
    pySliceUpto [recNoTs, recNeg, recPos] (-1) = [recNoTs, recNeg] ∧
    pySliceUpto [recNoTs, recNeg, recPos] (-1) ≠ [] := by
  refine ⟨by decide, by decide, by decide⟩

/-- Claim C2 amended: after the sort, the cap returns the first `maxItems`
records for every `maxItems` of at least zero (in particular the empty list
at zero), while a negative `maxItems` instead drops the last `|maxItems|`
records (CPython slice semantics); no error in any case. -/
theorem C2_cap (l : List NewsItem) (k : Int) :
    pySliceUpto l k =
      (if 0 ≤ k then l.take k.toNat else l.take (l.length - (-k).toNat)) ∧
    pySliceUpto l 0 = [] := by
  constructor
  · by_cases hk : 0 ≤ k
    · rw [if_pos hk, pySliceUpto_nonneg l k hk]
    · rw [if_neg hk, pySliceUpto_neg l k (lt_of_not_le hk)]
  · rw [pySliceUpto_nonneg l 0 le_rfl]
    rfl

/-- Claim C5: the keyword filter accepts a blob iff (includes is empty, or
some include keyword occurs case-insensitively as a substring of the blob)
and no exclude keyword occurs case-insensitively as a substring of the
blob; in particular an exclude match rejects even when an include matches,
and empty includes imposes no positive requirement. -/
theorem C5_keyword_filter (text : Option (List Char)) (includes excludes : List (List Char)) :
    matches_keywords text includes excludes = true ↔
      ((includes = [] ∨ ∃ k ∈ includes,
          subMatch (k.map Char.toLower) ((text.getD []).map Char.toLower) = true) ∧
       (∀ k ∈ excludes,
          subMatch (k.map Char.toLower) ((text.getD []).map Char.toLower) = false)) := by
  simp only [matches_keywords]
  split_ifs with h1 h2
  · constructor
    · intro hf; exact hf.elim
    · rintro ⟨hinc, -⟩
      rcases hinc with rfl | ⟨k, hk, hsub⟩
      · exact absurd rfl h1.1
      · exact absurd (List.any_eq_true.mpr ⟨k, hk, hsub⟩) h1.2
  · constructor
    · intro hf; exact hf.elim
    · rintro ⟨-, hexc⟩
      rcases List.any_eq_true.mp h2.2 with ⟨k, hk, hsub⟩
      rw [hexc k hk] at hsub
      exact Bool.noConfusion hsub
  · constructor
    · intro _
      constructor
      · rcases not_and_or.mp h1 with h | h
        · exact Or.inl (not_not.mp h)
        · exact Or.inr (List.any_eq_true.mp (not_not.mp h))
      · intro k hk
        rcases not_and_or.mp h2 with h | h
        · have he : excludes = [] := not_not.mp h
          rw [he] at hk
          exact absurd hk (List.not_mem_nil k)
        · have hany := Bool.eq_false_iff.mpr h
          have hkf := List.any_eq_false.mp hany k hk
          exact Bool.eq_false_iff.mpr hkf
    · intro _
      rfl

/-- Claim C3 counterexample: with a pre-epoch (negative) parsed timestamp in
the input, the record with a parseable timestamp sorts after the record
without one, because the sentinel is 0 (the Unix epoch), not the oldest
possible value. -/
theorem C3_counterexample :
    pySortDesc [recNoTs, recNeg] = [recNoTs, recNeg] ∧
    recNoTs.published_parsed = none ∧
    recNeg.published_parsed = some (-7200) := by
  refine ⟨by decide, rfl, rfl⟩

/-- Claim C3 amended: the effective sort key is the parsed publish time when
present and otherwise the fixed sentinel 0 (the Unix epoch, not the oldest
possible value), so in the sorted output a record without a parseable
timestamp precedes only records whose parsed timestamp is at most 0: every
record with a positive parsed timestamp comes before every record without
one, while pre-epoch timestamps sort below unknown ones. -/
theorem C3_sort_key_sentinel (l : List NewsItem) :
    (∀ x : NewsItem, ∀ ts : Int, x.published_parsed = some ts → sort_key x = ts) ∧
    (∀ x : NewsItem, x.published_parsed = none → sort_key x = 0) ∧
    (pySortDesc l).Pairwise (fun a b =>
      a.published_parsed = none → ∀ ts : Int, b.published_parsed = some ts → ts ≤ 0) := by
  refine ⟨?_, ?_, ?_⟩
  · intro x ts h
    simp [sort_key, h]
  · intro x h
    simp [sort_key, h]
  · have hs := List.sorted_insertionSort
      (fun a b : NewsItem => sort_key b ≤ sort_key a) l
    refine List.Pairwise.imp ?_ hs
    intro a b hab hanone ts hbts
    have ha : sort_key a = 0 := by simp [sort_key, hanone]
    have hb : sort_key b = ts := by simp [sort_key, hbts]
    rw [ha, hb] at hab
    exact hab

/-- Claim C6: deduplication keys a record by its link when non-empty, else
its title; the result is a subsequence of the input, its keys are pairwise
distinct, and for every key the record kept is exactly the first record of
the input with that key in encounter order (all later equal-key records are
dropped silently). -/
theorem C6_dedup (items : List NewsItem) :
    (uniq items dedup_key).Sublist items ∧
    ((uniq items dedup_key).map dedup_key).Nodup ∧
    ∀ k : String, (uniq items dedup_key).find? (fun y => dedup_key y == k) =
      items.find? (fun y => dedup_key y == k) := by
  refine ⟨uniqAux_sublist dedup_key [] items, uniqAux_map_nodup dedup_key [] items, ?_⟩
  intro k
  exact uniqAux_find dedup_key k [] items (List.not_mem_nil k)

/-- Claim C7: for every collected record list and configured maximum of at
least zero, the final output has pairwise-distinct deduplication keys, is
sorted by effective timestamp descending, keeps records of any fixed
effective timestamp in encounter order (stability, stated as: the output
records with that timestamp form a subsequence of the input records with
that timestamp), and has length at most the configured maximum. -/
theorem C7_output_invariants (items : List NewsItem) (m : Int) (hm : 0 ≤ m) :
    ((aggregateTail items m).map dedup_key).Nodup ∧
    (aggregateTail items m).Pairwise (fun a b => sort_key b ≤ sort_key a) ∧
    (∀ k : Int, ((aggregateTail items m).filter fun x => sort_key x == k).Sublist
      (items.filter fun x => sort_key x == k)) ∧
    (aggregateTail items m).length ≤ m.toNat := by
  have hagg : aggregateTail items m = (pySortDesc (uniq items dedup_key)).take m.toNat := by
    unfold aggregateTail
    exact pySliceUpto_nonneg _ _ hm
  have hperm : (pySortDesc (uniq items dedup_key)).Perm (uniq items dedup_key) :=
    List.perm_insertionSort _ _
  have htake : ((pySortDesc (uniq items dedup_key)).take m.toNat).Sublist
      (pySortDesc (uniq items dedup_key)) := List.take_sublist _ _
  refine ⟨?_, ?_, ?_, ?_⟩
  · rw [hagg]
    have h1 : ((uniq items dedup_key).map dedup_key).Nodup :=
      uniqAux_map_nodup dedup_key [] items
    have h2 : ((pySortDesc (uniq items dedup_key)).map dedup_key).Nodup :=
      ((hperm.map dedup_key).nodup_iff).mpr h1
    exact List.Nodup.sublist (htake.map dedup_key) h2
  · rw [hagg]
    exact List.Pairwise.sublist htake
      (List.sorted_insertionSort (fun a b : NewsItem => sort_key b ≤ sort_key a)
        (uniq items dedup_key))
  · intro k
    rw [hagg]
    have hstep1 := htake.filter (fun x => sort_key x == k)
    have hstep2 : ((pySortDesc (uniq items dedup_key)).filter fun x => sort_key x == k) =
        ((uniq items dedup_key).filter fun x => sort_key x == k) := by
      apply filter_insertionSort
      intro a b ha hb
      have ha2 : sort_key a = k := by simpa using ha
      have hb2 : sort_key b = k := by simpa using hb
      rw [ha2, hb2]
    have hstep3 := (uniqAux_sublist dedup_key [] items).filter (fun x => sort_key x == k)
    rw [hstep2] at hstep1
    exact hstep1.trans hstep3
  · rw [hagg, List.length_take]
    exact min_le_left _ _

/-- Witness for C7 at a three-record input and maximum 2. -/
theorem C7_output_invariants_witness :
    (0 ≤ (2 : Int)) ∧
    (((aggregateTail [recNoTs, recNeg, recPos] 2).map dedup_key).Nodup ∧
     (aggregateTail [recNoTs, recNeg, recPos] 2).Pairwise
       (fun a b => sort_key b ≤ sort_key a) ∧
     (∀ k : Int, ((aggregateTail [recNoTs, recNeg, recPos] 2).filter
         fun x => sort_key x == k).Sublist
       ([recNoTs, recNeg, recPos].filter fun x => sort_key x == k)) ∧
     (aggregateTail [recNoTs, recNeg, recPos] 2).length ≤ (2 : Int).toNat) :=
  ⟨by decide, C7_output_invariants [recNoTs, recNeg, recPos] 2 (by decide)⟩

end NewsAgent
